import Mathlib

/-!
Verification of the `sandpiper` static-analysis library (`src/sandpiper/analyzer.py`).

The Python AST is modelled as a rose tree of kind-tagged nodes (the spec's
"closed tagged-variant enumeration of node kinds"); every analysis pass of
`analyzer.py` is translated into an executable Lean function over that tree.
Machine details that the analyzer does not observe (object identity, float
representation of `avg_complexity`) are modelled with `Nat`/`Rat`.
-/
namespace Sandpiper

/-- One `alias` element of an `ast.Import` / `ast.ImportFrom` node:
`alias.name` and the optional `alias.asname`. -/
structure ImportAlias where
  name : String
  asname : Option String
deriving DecidableEq, Repr

/-- One element of `ast.Assign.targets`, as far as the analyzer inspects it:
either a bare `ast.Name` target (with its `id` and `lineno`) or anything else
(tuple/attribute/subscript targets, which the analyzer ignores). -/
inductive AssignTarget where
  | nameT (id : String) (lineno : Nat)
  | otherT
deriving DecidableEq, Repr

/-- The node categories `analyzer.py` discriminates on via `isinstance`,
together with the node fields it reads.  Every other node type is `other`. -/
inductive Kind where
  | module
  | importPlain (names : List ImportAlias) (lineno : Nat)
  | importFrom (moduleName : Option String) (names : List ImportAlias) (lineno : Nat)
  | classDef (name : String) (lineno : Nat) (docstring : String)
  | functionDef (name : String) (lineno : Nat) (docstring : String) (params : List String)
  | assign (targets : List AssignTarget) (lineno : Nat)
  | nameExpr (id : String) (lineno : Nat) (col : Nat)
  | ifStmt
  | ifExp
  | forStmt
  | asyncForStmt
  | whileStmt
  | tryStmt (handlerCount : Nat)
  | boolOp
  | callExpr
  | other
deriving DecidableEq, Repr

/-- An AST node: its kind plus its child nodes (`ast.iter_child_nodes`). -/
inductive Node where
  | mk (kind : Kind) (children : List Node)

/-- The kind tag of a node. -/
def Node.kind : Node → Kind
  | .mk k _ => k

/-- The child nodes of a node (`ast.iter_child_nodes`). -/
def Node.children : Node → List Node
  | .mk _ cs => cs

/-- `x` occurs somewhere inside the tree `t` (at any nesting depth). -/
inductive SubNode : Node → Node → Prop where
  | refl (n : Node) : SubNode n n
  | via {x c : Node} {k : Kind} {cs : List Node} :
      SubNode x c → c ∈ cs → SubNode x (Node.mk k cs)

mutual
/-- Number of nodes of a tree (the fuel measure for `astWalk`). -/
def countN : Node → Nat
  | .mk _ cs => 1 + countL cs
/-- Total number of nodes of a forest. -/
def countL : List Node → Nat
  | [] => 0
  | n :: ns => countN n + countL ns
end

/-- `ast.walk`: enumerate a node and all of its descendants breadth-first
(CPython keeps a deque, pops the front, appends the children).  The `fuel`
argument is a termination device only; `astWalk` supplies the exact node
count, so the queue always empties before the fuel does
(`astWalk_complete` below shows no node is dropped). -/
def walkGo : Nat → List Node → List Node
  | 0, _ => []
  | _ + 1, [] => []
  | fuel + 1, n :: q => n :: walkGo fuel (q ++ n.children)

/-- `ast.walk(t)` as a list in BFS order. -/
def astWalk (t : Node) : List Node := walkGo (countN t) [t]

/-! ## String helpers

The analyzer uses a handful of Python `str` operations on ASCII data
(`split('.')`, `lower()`, `startswith`, `endswith`, `strip()`).  They are
implemented here over `List Char` so that concrete analyses evaluate
inside the kernel. -/
/-- `s.split('.')[0]`: the prefix of `s` before the first dot (all of `s`
when it has no dot). -/
def rootSeg (s : String) : String :=
  String.mk (s.data.takeWhile (fun c => c != '.'))

/-- `s.startswith(pre)`. -/
def strStartsWith (s pre : String) : Bool :=
  pre.data.isPrefixOf s.data

/-- `s.endswith(suf)`. -/
def strEndsWith (s suf : String) : Bool :=
  suf.data.reverse.isPrefixOf s.data.reverse

/-- ASCII `lower()` on one character (the analyzer only lowercases
ASCII filenames). -/
def lowerChar (c : Char) : Char :=
  if 65 ≤ c.toNat ∧ c.toNat ≤ 90 then Char.ofNat (c.toNat + 32) else c

/-- `s.lower()`. -/
def strToLower (s : String) : String := String.mk (s.data.map lowerChar)

/-- Python `str.strip()` whitespace test. -/
def isSpaceChar (c : Char) : Bool :=
  c == ' ' || c == '\t' || c == '\n' || c == '\r'
    || c == Char.ofNat 11 || c == Char.ofNat 12

/-- `s.strip()`. -/
def strTrim (s : String) : String :=
  String.mk (((s.data.dropWhile isSpaceChar).reverse.dropWhile isSpaceChar).reverse)

/-! ## Analysis result records (the dictionaries `analyze_python_file` builds) -/
/-- One element of `result['structure']['imports']`.  A plain `import`
entry has no `module` key (`moduleName = none`); a from-import always has
one (the Python code stores `node.module or ''`). -/
structure ImportEntry where
  moduleName : Option String
  name : String
  aliasName : Option String
  line : Nat
  from_import : Bool
deriving DecidableEq, Repr

/-- A method entry of a class entry.  (The `references` sub-list of the
Python dict is initialized to `[]` and never written, so it is omitted.) -/
structure MethodEntry where
  name : String
  line : Nat
  docstring : String
  parameters : List String
deriving DecidableEq, Repr

/-- One element of `result['structure']['classes']` (dead `references`
sub-list omitted as above). -/
structure ClassEntry where
  name : String
  line_start : Nat
  docstring : String
  methods : List MethodEntry
deriving DecidableEq, Repr

/-- One element of `result['structure']['functions']`. -/
structure FuncEntry where
  name : String
  line : Nat
  docstring : String
  parameters : List String
deriving DecidableEq, Repr

/-- One element of `result['structure']['variables']`. -/
structure VarEntry where
  name : String
  line : Nat
deriving DecidableEq, Repr

/-- One recorded reference (`result['references'][name]` element). -/
structure Ref where
  line : Nat
  column : Nat
  context : String
deriving DecidableEq, Repr

/-- The `comp` defaultdict of the metrics visitor (absent key = 0). -/
structure Comp where
  conditionals : Nat := 0
  loops : Nat := 0
  exceptions : Nat := 0
  boolean_ops : Nat := 0
  function_calls : Nat := 0
deriving DecidableEq, Repr

/-- `result['metrics']`. -/
structure MetricsOut where
  conditional_count : Nat
  loop_count : Nat
  detailed_complexity : Comp
  complexity : Nat
deriving DecidableEq, Repr

/-- `result['summary']` of one file (all integer counters). -/
structure Summary where
  class_count : Nat
  method_count : Nat
  function_count : Nat
  import_count : Nat
  variable_count : Nat
  unused_count : Nat
deriving DecidableEq, Repr

/-- A successfully analyzed file.  `imports = none` models the state after
the directory pass popped the `imports` key
(`file_result['structure'].pop('imports', None)`). -/
structure FileOk where
  filename : String
  size_bytes : Nat
  line_count : Nat
  imports : Option (List ImportEntry)
  classes : List ClassEntry
  functions : List FuncEntry
  variableDecls : List VarEntry
  references : List (String × List Ref)
  metrics : MetricsOut
  summary : Summary
deriving DecidableEq, Repr

/-- `analyze_python_file`'s result: either the error-shaped dictionary
(only `file_info` and `error` keys) or the full analysis. -/
inductive FileResult where
  | err (filename : String) (error : String)
  | ok (r : FileOk)
deriving DecidableEq, Repr

/-- A source file as presented to the analyzer.  Reading and parsing
(`open`/`ast.parse`, the spec's external Tree Provider) is modelled by the
`parsed` outcome; `lines` is `source.splitlines()`. -/
structure PyFile where
  filename : String
  size_bytes : Nat
  lines : List String
  parsed : Except String Node

/-! ## Association-list operations (Python `dict` with insertion order) -/
/-- `d[k]` as an option (`k in d` ↔ `isSome`). -/
def lookupA {α : Type} (l : List (String × α)) (k : String) : Option α :=
  (l.find? (fun p => p.1 == k)).map (fun p => p.2)

/-- `k in d`. -/
def containsKeyA {α : Type} (l : List (String × α)) (k : String) : Bool :=
  (l.find? (fun p => p.1 == k)).isSome

/-- `d[k] = v`: replace in place when the key exists (Python dicts keep the
original insertion position), append otherwise. -/
def setKeyA {α : Type} (l : List (String × α)) (k : String) (v : α) : List (String × α) :=
  if containsKeyA l k then l.map (fun p => if p.1 == k then (k, v) else p)
  else l ++ [(k, v)]

/-- The `definitions` registry: name ↦ recorded definition lines. -/
abbrev Defs := List (String × List Nat)

/-- `definitions.setdefault(nm, []).append(ln)`. -/
def addDefLine (defs : Defs) (nm : String) (ln : Nat) : Defs :=
  setKeyA defs nm ((lookupA defs nm).getD [] ++ [ln])

/-! ## Imports pass (`analyzer.py` lines 61-83) -/
/-- Effective bound name of a plain-import alias:
`alias.asname or alias.name.split('.')[0]`. -/
def importBoundName (a : ImportAlias) : String :=
  match a.asname with
  | some s => s
  | none => rootSeg a.name

/-- Effective bound name of a from-import alias: `alias.asname or alias.name`. -/
def fromBoundName (a : ImportAlias) : String :=
  match a.asname with
  | some s => s
  | none => a.name

/-- Names an import node binds (empty for non-import nodes). -/
def importBoundNames : Kind → List String
  | .importPlain als _ => als.map importBoundName
  | .importFrom _ als _ => als.map fromBoundName
  | _ => []

/-- Processing one walked node during the imports pass: extend the
`imported` shadow set and the `structure.imports` list. -/
def importsStep (acc : List String × List ImportEntry) (n : Node) :
    List String × List ImportEntry :=
  match n.kind with
  | .importPlain als ln =>
    als.foldl (fun acc a =>
      (acc.1 ++ [importBoundName a],
       acc.2 ++ [{ moduleName := none, name := a.name, aliasName := a.asname,
                   line := ln, from_import := false }])) acc
  | .importFrom m als ln =>
    als.foldl (fun acc a =>
      (acc.1 ++ [fromBoundName a],
       acc.2 ++ [{ moduleName := some (m.getD ""), name := a.name, aliasName := a.asname,
                   line := ln, from_import := true }])) acc
  | _ => acc

/-- The full imports pass over `ast.walk(tree)`. -/
def importsPass (ns : List Node) : List String × List ImportEntry :=
  ns.foldl importsStep ([], [])

/-- The shadow set (`imported`) of a parsed unit. -/
def shadowOf (t : Node) : List String := (importsPass (astWalk t)).1

/-- `result['structure']['imports']` of a parsed unit. -/
def importEntriesOf (t : Node) : List ImportEntry := (importsPass (astWalk t)).2

/-! ## Declaration extraction passes (`analyzer.py` lines 88-146) -/
/-- The inner loop over a class body collecting direct `FunctionDef`
children as methods, threading the `definitions` registry. -/
def methodsFold (children : List Node) (defs : Defs) : List MethodEntry × Defs :=
  children.foldl (fun acc ch =>
    match ch.kind with
    | .functionDef mn ml md mp => (acc.1 ++ [⟨mn, ml, md, mp⟩], addDefLine acc.2 mn ml)
    | _ => acc) ([], defs)

/-- Classes pass over `tree.body`: top-level `ClassDef`s not in the shadow set. -/
def classesPass (body : List Node) (imported : List String) (defs : Defs) :
    List ClassEntry × Defs :=
  body.foldl (fun acc node =>
    match node.kind with
    | .classDef cname ln doc =>
      if cname ∈ imported then acc
      else
        let defs1 := addDefLine acc.2 cname ln
        let md := methodsFold node.children defs1
        (acc.1 ++ [⟨cname, ln, doc, md.1⟩], md.2)
    | _ => acc) ([], defs)

/-- The `is_method` test: some extracted class has a method with identical
name and identical starting line. -/
def isMethodOf (classes : List ClassEntry) (nm : String) (ln : Nat) : Bool :=
  classes.any (fun c => c.methods.any (fun m => m.name == nm && m.line == ln))

/-- Functions pass over `tree.body`: top-level `FunctionDef`s not in the
shadow set and not already captured as a method (name *and* line match). -/
def functionsPass (body : List Node) (imported : List String)
    (classes : List ClassEntry) (defs : Defs) : List FuncEntry × Defs :=
  body.foldl (fun acc node =>
    match node.kind with
    | .functionDef fn ln doc ps =>
      if fn ∈ imported then acc
      else if isMethodOf classes fn ln then acc
      else (acc.1 ++ [⟨fn, ln, doc, ps⟩], addDefLine acc.2 fn ln)
    | _ => acc) ([], defs)

/-- Variables pass over `tree.body`: bare-`Name` targets of top-level
assignments, skipping shadowed names; each occurrence appended separately. -/
def variablesPass (body : List Node) (imported : List String) (defs : Defs) :
    List VarEntry × Defs :=
  body.foldl (fun acc node =>
    match node.kind with
    | .assign tgts _ =>
      tgts.foldl (fun acc t =>
        match t with
        | .nameT id ln =>
          if id ∈ imported then acc
          else (acc.1 ++ [⟨id, ln⟩], addDefLine acc.2 id ln)
        | .otherT => acc) acc
    | _ => acc) ([], defs)

/-- `result['structure']['classes']` of a parsed unit. -/
def classesOf (t : Node) : List ClassEntry :=
  (classesPass t.children (shadowOf t) []).1

/-- The `definitions` registry after the classes pass. -/
def defsAfterClasses (t : Node) : Defs :=
  (classesPass t.children (shadowOf t) []).2

/-- `result['structure']['functions']` of a parsed unit. -/
def functionsOf (t : Node) : List FuncEntry :=
  (functionsPass t.children (shadowOf t) (classesOf t) (defsAfterClasses t)).1

/-- The `definitions` registry after the functions pass. -/
def defsAfterFunctions (t : Node) : Defs :=
  (functionsPass t.children (shadowOf t) (classesOf t) (defsAfterClasses t)).2

/-- `result['structure']['variables']` of a parsed unit. -/
def variablesOf (t : Node) : List VarEntry :=
  (variablesPass t.children (shadowOf t) (defsAfterFunctions t)).1

/-- The final `definitions` registry of a parsed unit. -/
def fileDefs (t : Node) : Defs :=
  (variablesPass t.children (shadowOf t) (defsAfterFunctions t)).2

/-! ## Reference scanning (`analyzer.py` lines 148-159) -/
/-- `lines[node.lineno - 1].strip()`.  The line numbers of a genuinely
parsed tree always lie within the source, so total indexing with a `""`
default is observationally identical to the Python indexing. -/
def contextLine (lines : List String) (ln : Nat) : String :=
  strTrim (lines.getD (ln - 1) "")

/-- Processing one walked node during the reference scan. -/
def scanStep (defs : Defs) (lines : List String)
    (refs : List (String × List Ref)) (n : Node) : List (String × List Ref) :=
  match n.kind with
  | .nameExpr id ln col =>
    match lookupA defs id with
    | some dls =>
      if ln ∈ dls then refs
      else setKeyA refs id
        ((lookupA refs id).getD [] ++ [⟨ln, col, contextLine lines ln⟩])
    | none => refs
  | _ => refs

/-- The full reference scan over `ast.walk(tree)`. -/
def scanRefs (defs : Defs) (lines : List String) (ns : List Node) :
    List (String × List Ref) :=
  ns.foldl (scanStep defs lines) []

/-- `result['references']` of a parsed unit. -/
def referencesOf (t : Node) (lines : List String) : List (String × List Ref) :=
  scanRefs (fileDefs t) lines (astWalk t)

/-! ## Metrics (`analyzer.py` lines 161-185) -/
/-- The counter increments the visitor applies at one node. -/
def bumpComp (c : Comp) (k : Kind) : Comp :=
  match k with
  | .ifStmt => { c with conditionals := c.conditionals + 1 }
  | .ifExp => { c with conditionals := c.conditionals + 1 }
  | .forStmt => { c with loops := c.loops + 1 }
  | .whileStmt => { c with loops := c.loops + 1 }
  | .asyncForStmt => { c with loops := c.loops + 1 }
  | .tryStmt h => { c with exceptions := c.exceptions + 1 + h }
  | .boolOp => { c with boolean_ops := c.boolean_ops + 1 }
  | .callExpr => { c with function_calls := c.function_calls + 1 }
  | _ => c

mutual
/-- `visit(n)`: bump the counters for `n`, then recurse into the children. -/
def visitNode (c : Comp) : Node → Comp
  | .mk k cs => visitList (bumpComp c k) cs
/-- The `for c in ast.iter_child_nodes(n): visit(c)` loop. -/
def visitList (c : Comp) : List Node → Comp
  | [] => c
  | n :: ns => visitList (visitNode c n) ns
end

/-- `result['metrics']`. -/
def computeMetrics (t : Node) : MetricsOut :=
  let comp := visitNode {} t
  { conditional_count := comp.conditionals
    loop_count := comp.loops
    detailed_complexity := comp
    complexity := 1 + comp.conditionals + comp.loops + comp.exceptions + comp.boolean_ops }

/-! ## `analyze_python_file` -/
/-- `analyze_python_file`: parse failure yields the error-shaped result;
otherwise run the imports, classes, functions, variables, reference and
metrics passes and assemble the summary.  (`unused_code` is initialized to
`[]` and never extended, so `unused_count` is always 0.) -/
def analyze_python_file (f : PyFile) : FileResult :=
  match f.parsed with
  | .error e => .err f.filename e
  | .ok tree =>
    let imps := importEntriesOf tree
    let classes := classesOf tree
    let functions := functionsOf tree
    let variableDecls := variablesOf tree
    .ok {
      filename := f.filename
      size_bytes := f.size_bytes
      line_count := f.lines.length
      imports := some imps
      classes := classes
      functions := functions
      variableDecls := variableDecls
      references := referencesOf tree f.lines
      metrics := computeMetrics tree
      summary := {
        class_count := classes.length
        method_count := (classes.map (fun c => c.methods.length)).sum
        function_count := functions.length
        import_count := imps.length
        variable_count := variableDecls.length
        unused_count := 0 } }

/-! ## Directory analysis (`analyzer.py` lines 200-258) -/
/-- The all-zero summary (`defaultdict(int)` start state). -/
def zeroSummary : Summary := ⟨0, 0, 0, 0, 0, 0⟩

/-- Per-key addition of two file summaries
(`results['summary'][k] += v`). -/
def addSummary (a b : Summary) : Summary :=
  ⟨a.class_count + b.class_count, a.method_count + b.method_count,
   a.function_count + b.function_count, a.import_count + b.import_count,
   a.variable_count + b.variable_count, a.unused_count + b.unused_count⟩

/-- The file-level skip test of the directory loop, verbatim from
`analyzer.py` line 231: because Python's `and` binds tighter than `or`,
the condition is `(exclude_tests and startswith('test_')) or
endswith('_test.py')` — so the `*_test.py` arm is NOT guarded by
`exclude_tests`. -/
def testSkip (exclude_tests : Bool) (filename : String) : Bool :=
  (exclude_tests && strStartsWith (strToLower filename) "test_")
    || strEndsWith (strToLower filename) "_test.py"

/-- `file_result['structure'].pop('imports', None)` followed by
`file_result['summary']['import_count'] = 0`, on an ok-shaped result. -/
def stripImports (r : FileOk) : FileOk :=
  { r with imports := none, summary := { r.summary with import_count := 0 } }

/-- Processing one directory entry: extension filter, test-file skip,
per-file analysis, optional import stripping, then folding the file
summary into the running totals.  An error-shaped file result has neither
a `structure` nor a `summary` key, so the subsequent subscript raises
`KeyError` — modelled as `Except.error`. -/
def dirStep (include_imports exclude_tests : Bool)
    (acc : List FileOk × Summary) (f : PyFile) :
    Except String (List FileOk × Summary) :=
  if ¬ strEndsWith f.filename ".py" then .ok acc
  else if testSkip exclude_tests f.filename then .ok acc
  else
    match analyze_python_file f with
    | .err _ _ =>
      .error (if include_imports then "KeyError: summary" else "KeyError: structure")
    | .ok r =>
      let r := if include_imports then r else stripImports r
      .ok (acc.1 ++ [r], addSummary acc.2 r.summary)

/-- The root of `os.path.splitext`: strip the extension starting at the
last dot, unless every character before that dot is itself a dot. -/
def lastDotIdx : List Char → Option Nat
  | [] => none
  | c :: cs =>
    match lastDotIdx cs with
    | some i => some (i + 1)
    | none => if c = '.' then some 0 else none

/-- `os.path.splitext(filename)[0]` for a bare filename. -/
def splitextBase (s : String) : String :=
  match lastDotIdx s.data with
  | none => s
  | some i =>
    if (s.data.take i).any (fun c => c != '.') then String.mk (s.data.take i) else s

/-- `f['file_info']['filename']`. -/
def filenameOf : FileResult → String
  | .err fn _ => fn
  | .ok r => r.filename

/-- `f.get('structure', {}).get('imports', [])`: an error-shaped result
has no `structure` key and a stripped result has no `imports` key; both
give `[]`. -/
def importsOf : FileResult → List ImportEntry
  | .err _ _ => []
  | .ok r => r.imports.getD []

/-- `imp.get('module', imp.get('name', '')).split('.')[0]`. -/
def rootModOf (imp : ImportEntry) : String :=
  rootSeg (imp.moduleName.getD imp.name)

/-- Module name of an analyzed file: base filename without extension. -/
def fmdName (f : FileResult) : String := splitextBase (filenameOf f)

/-- The inner loop of `find_module_dependencies` over one file's import
entries, appending qualifying root module names to `deps[name]`. -/
def fmdInner (name : String) (deps : List (String × List String))
    (imps : List ImportEntry) : List (String × List String) :=
  imps.foldl (fun deps imp =>
    if rootModOf imp != "" && rootModOf imp != name
        && containsKeyA deps (rootModOf imp)
        && !(((lookupA deps name).getD []).contains (rootModOf imp))
    then setKeyA deps name ((lookupA deps name).getD [] ++ [rootModOf imp])
    else deps) deps

/-- `find_module_dependencies(files)`. -/
def find_module_dependencies (files : List FileResult) :
    List (String × List String) :=
  files.foldl (fun deps f =>
    let name := fmdName f
    fmdInner name (setKeyA deps name []) (importsOf f)) []

/-- `results` of `analyze_python_directory`.  `avg_complexity` lives in
the Python `summary` dict next to the integer counters; it is the only
non-integer entry and is split into its own field here. -/
structure CodebaseResult where
  directory : String
  files : List FileOk
  summary : Summary
  avg_complexity : ℚ
  module_dependencies : List (String × List String)
deriving DecidableEq, Repr

/-- `round(x, 2)`.  Python rounds an IEEE double; the analyzer only
produces and compares these values, so exact rational rounding stands in
for the float operation. -/
def round2 (x : ℚ) : ℚ := (round (x * 100) : ℤ) / 100

/-- `analyze_python_directory` over a flat listing of candidate files.
Sub-directory pruning (`ignore_dirs`, the `dirs` filters for
`include_imported_code` / `exclude_tests`) concerns only which files the
`os.walk` traversal presents and is outside this flat model, so the
`include_imported_code` option has no observable effect here. -/
def analyze_python_directory (directory : String) (files : List PyFile)
    (include_imports include_imported_code exclude_tests : Bool) :
    Except String CodebaseResult :=
  match files.foldlM (dirStep include_imports exclude_tests) ([], zeroSummary) with
  | .error e => .error e
  | .ok acc =>
    let fs := acc.1
    let total_files : Nat := if fs.length = 0 then 1 else fs.length
    let total_complexity : Nat := (fs.map (fun r => r.metrics.complexity)).sum
    .ok { directory := directory
          files := fs
          summary := acc.2
          avg_complexity := round2 ((total_complexity : ℚ) / (total_files : ℚ))
          module_dependencies := find_module_dependencies (fs.map FileResult.ok) }

/-! ## C4 apparatus: independent node counts

`weightN w t` sums `w` over every node of the tree `t`; with the weights
below it yields the number of conditional nodes, loop nodes, the
`1 + handlers` total over try nodes, the number of boolean-operator nodes
and the number of call nodes, as §4.3 of the spec describes them. -/
/-- Weight 1 on `If` / `IfExp` nodes. -/
def condWeight : Kind → Nat
  | .ifStmt => 1
  | .ifExp => 1
  | _ => 0

/-- Weight 1 on `For` / `While` / `AsyncFor` nodes. -/
def loopWeight : Kind → Nat
  | .forStmt => 1
  | .whileStmt => 1
  | .asyncForStmt => 1
  | _ => 0

/-- Weight `1 + number_of_handler_clauses` on `Try` nodes. -/
def excWeight : Kind → Nat
  | .tryStmt h => 1 + h
  | _ => 0

/-- Weight 1 on `BoolOp` nodes. -/
def boolWeight : Kind → Nat
  | .boolOp => 1
  | _ => 0

/-- Weight 1 on `Call` nodes. -/
def callWeight : Kind → Nat
  | .callExpr => 1
  | _ => 0

mutual
/-- Sum of a kind-weight over all nodes of a tree. -/
def weightN (w : Kind → Nat) : Node → Nat
  | .mk k cs => w k + weightL w cs
/-- Sum of a kind-weight over all nodes of a forest. -/
def weightL (w : Kind → Nat) : List Node → Nat
  | [] => 0
  | n :: ns => weightN w n + weightL w ns
end

/-- The counter record obtained by adding each independent count to `c`. -/
def addCounts (c : Comp) (n : Node) : Comp :=
  ⟨c.conditionals + weightN condWeight n, c.loops + weightN loopWeight n,
   c.exceptions + weightN excWeight n, c.boolean_ops + weightN boolWeight n,
   c.function_calls + weightN callWeight n⟩

/-! ## C5 apparatus: characterizing the reference scan -/
/-- The identifier occurrences (`ast.Name` nodes) of a node list, as
`(id, lineno, col_offset)` triples. -/
def nameOccs (ns : List Node) : List (String × Nat × Nat) :=
  ns.filterMap (fun n => match n.kind with
    | .nameExpr i l c => some (i, l, c)
    | _ => none)

/-- The reference list the scan is specified to produce for a registered
name `nm` with definition lines `dls`: every occurrence of `nm` whose line
is not a definition line, in occurrence order. -/
def refsFor (lines : List String) (nm : String) (dls : List Nat)
    (occs : List (String × Nat × Nat)) : List Ref :=
  (occs.filter (fun o => o.1 == nm && !(dls.contains o.2.1))).map
    (fun o => ⟨o.2.1, o.2.2, contextLine lines o.2.1⟩)

/-- The spec's §8 scenario unit: `class C` with two methods, a function
`f` whose body calls `C`, and an assignment `v = C()`. -/
def c5tree : Node := .mk .module [
  .mk (.classDef "C" 1 "") [
    .mk (.functionDef "m1" 2 "" ["self"]) [],
    .mk (.functionDef "m2" 3 "" ["self"]) []],
  .mk (.functionDef "f" 4 "" []) [
    .mk .other [.mk .callExpr [.mk (.nameExpr "C" 5 11) []]]],
  .mk (.assign [.nameT "v" 6] 6) [
    .mk (.nameExpr "v" 6 0) [], .mk .callExpr [.mk (.nameExpr "C" 6 4) []]]]

/-- Source lines of the §8 scenario unit. -/
def c5lines : List String :=
  ["class C:", "  def m1(self): pass", "  def m2(self): pass", "",
   "def f(): return C()", "v = C()"]

/-- A unit shadowing `foo` by a module-level import while also declaring
`class foo`, `def foo` and `foo = 1` at module level. -/
def c6tree : Node := .mk .module [
  .mk (.importPlain [⟨"foo", none⟩] 1) [],
  .mk (.classDef "foo" 2 "") [],
  .mk (.functionDef "foo" 3 "" []) [],
  .mk (.assign [.nameT "foo" 4] 4) []]

/-- The file wrapping `c6tree`. -/
def c6file : PyFile :=
  ⟨"m.py", 40, ["import foo", "class foo:", "def foo():", "foo = 1"], .ok c6tree⟩

/-- Default ok-record used to name a concrete analysis output. -/
def dfltFileOk : FileOk :=
  ⟨"", 0, 0, none, [], [], [], [], ⟨0, 0, {}, 0⟩, ⟨0, 0, 0, 0, 0, 0⟩⟩

/-- Unwrap an ok-shaped file result. -/
def okFile (fr : FileResult) : FileOk :=
  match fr with
  | .ok r => r
  | .err _ _ => dfltFileOk

/-- The import node nested inside a function body of `c10tree`. -/
def c10import : Node := .mk (.importPlain [⟨"foo", none⟩] 2) []

/-- A unit whose only import of `foo` sits inside the body of `def g`,
while `class foo` is declared at module level. -/
def c10tree : Node := .mk .module [
  .mk (.functionDef "g" 1 "" []) [c10import],
  .mk (.classDef "foo" 3 "") []]

/-- The file wrapping `c10tree`. -/
def c10file : PyFile :=
  ⟨"n.py", 40, ["def g():", "  import foo", "class foo:"], .ok c10tree⟩

/-! ## C7 apparatus: characterizing the functions pass -/
/-- The entry the functions pass produces for one top-level node. -/
def funcEntryOf (imported : List String) (classes : List ClassEntry) (nd : Node) :
    Option FuncEntry :=
  match nd.kind with
  | .functionDef fn ln doc ps =>
    if fn ∈ imported then none
    else if isMethodOf classes fn ln then none
    else some ⟨fn, ln, doc, ps⟩
  | _ => none

/-- The name and line of a `FunctionDef` node kind. -/
def funcDefNameLine : Kind → Option (String × Nat)
  | .functionDef n l _ _ => some (n, l)
  | _ => none

/-- The claim of C7 exactly as stated: a top-level function definition is
omitted from the functions collection iff some extracted class contains a
method with the same name and starting line (no shadow-set caveat). -/
def C7ClaimAt (t : Node) : Prop :=
  ∀ nd ∈ t.children, ∀ p ∈ (funcDefNameLine nd.kind).toList,
    ((¬ ∃ fe ∈ functionsOf t, fe.name = p.1 ∧ fe.line = p.2) ↔
      ∃ c ∈ classesOf t, ∃ m ∈ c.methods, m.name = p.1 ∧ m.line = p.2)

/-- A unit with `import foo` and a top-level `def foo` and no classes. -/
def c7tree : Node := .mk .module [
  .mk (.importPlain [⟨"foo", none⟩] 1) [],
  .mk (.functionDef "foo" 2 "" []) []]

/-- A unit with a class method `h` at line 2 and a same-named top-level
function at line 5 (name matches, line differs). -/
def c7wtree : Node := .mk .module [
  .mk (.classDef "K" 1 "") [.mk (.functionDef "h" 2 "" ["self"]) []],
  .mk (.functionDef "h" 5 "" []) []]

/-! ## C1 / C2: concrete directory-scan behavior -/
/-- An unparseable file: the Tree Provider raises, so `analyze_python_file`
returns the error-shaped result. -/
def c1bad : PyFile := ⟨"bad.py", 20, ["def f(:"], .error "invalid syntax (bad.py, line 1)"⟩

/-- A trivially valid file. -/
def c1good : PyFile := ⟨"good.py", 5, [""], .ok (.mk .module [])⟩

/-- The default codebase record used to name a concrete directory output. -/
def dfltCodebase : CodebaseResult := ⟨"", [], zeroSummary, 0, []⟩

/-- Unwrap an ok-shaped directory result. -/
def okDir (e : Except String CodebaseResult) : CodebaseResult :=
  match e with
  | .ok r => r
  | .error _ => dfltCodebase

/-- A perfectly parseable file whose name ends in `_test.py`. -/
def c2testfile : PyFile :=
  ⟨"foo_test.py", 10, ["x = 1"],
   .ok (.mk .module [.mk (.assign [.nameT "x" 1] 1) [.mk (.nameExpr "x" 1 0) []]])⟩

/-! ## C8 / C9 apparatus: the successful directory run as a pure pipeline -/
/-- Does the directory loop keep this file (`.py` extension and not
test-skipped)? -/
def keepFile (exclude_tests : Bool) (f : PyFile) : Bool :=
  strEndsWith f.filename ".py" && !(testSkip exclude_tests f.filename)

/-- The processed record of a kept file (`none` when it fails to parse). -/
def processedOf (include_imports : Bool) (f : PyFile) : Option FileOk :=
  match analyze_python_file f with
  | .ok r => some (if include_imports then r else stripImports r)
  | .err _ _ => none

/-- The kept-and-successfully-analyzed files of a listing, processed. -/
def processedFiles (include_imports exclude_tests : Bool) (files : List PyFile) :
    List FileOk :=
  (files.filter (keepFile exclude_tests)).filterMap (processedOf include_imports)

/-- A file that does import things (`import os`). -/
def c9file : PyFile :=
  ⟨"a.py", 10, ["import os"],
   .ok (.mk .module [.mk (.importPlain [⟨"os", none⟩] 1) []])⟩

/-- A file with one conditional. -/
def c8a : PyFile := ⟨"a.py", 5, ["if x:"], .ok (.mk .module [.mk .ifStmt []])⟩

/-- An empty file. -/
def c8b : PyFile := ⟨"b.py", 5, [""], .ok (.mk .module [])⟩

/-! ## C3 apparatus: characterizing `find_module_dependencies` -/
/-- One outer-loop step of `find_module_dependencies`. -/
def fmdStep (deps : List (String × List String)) (f : FileResult) :
    List (String × List String) :=
  fmdInner (fmdName f) (setKeyA deps (fmdName f) []) (importsOf f)

/-- The dependency list the inner loop builds for one file, as a pure
function of the key-set predicate at that moment: append each qualifying
root module name (non-empty, not the file itself, an existing key, not
yet recorded). -/
def fileDepsAux (keyF : String → Bool) (name : String) (acc : List String) :
    List ImportEntry → List String
  | [] => acc
  | imp :: imps =>
    if rootModOf imp != "" && rootModOf imp != name && keyF (rootModOf imp)
        && !(acc.contains (rootModOf imp))
    then fileDepsAux keyF name (acc ++ [rootModOf imp]) imps
    else fileDepsAux keyF name acc imps

/-- A valid analyzed file `a.py` with no imports. -/
def c3fileA : FileOk :=
  { filename := "a.py", size_bytes := 0, line_count := 0, imports := some [],
    classes := [], functions := [], variableDecls := [], references := [],
    metrics := ⟨0, 0, {}, 1⟩, summary := ⟨0, 0, 0, 0, 0, 0⟩ }

/-- The import entry of `import a` at line 1. -/
def c3impA : ImportEntry := ⟨none, "a", none, 1, false⟩

/-- A valid analyzed file `b.py` whose single import is `import a`. -/
def c3fileB : FileOk :=
  { c3fileA with filename := "b.py", imports := some [c3impA] }

/-- The analyzed-files sequence with the importer first: `b.py` before
`a.py`. -/
def c3files : List FileResult := [.ok c3fileB, .ok c3fileA]

/-- The claim of C3 exactly as stated: an edge exists iff the root module
name matches another analyzed file's base filename (self-edges excluded),
independently of analysis order. -/
def C3ClaimAt (files : List FileResult) : Prop :=
  ∀ f ∈ files, ∀ M : String,
    M ∈ (lookupA (find_module_dependencies files) (fmdName f)).getD []
      ↔ (M ≠ fmdName f ∧ (∃ g ∈ files, fmdName g = M)
          ∧ ∃ imp ∈ importsOf f, rootModOf imp = M)

/-- Structural induction over the nested inductive `Node`, with the
inductive hypothesis available for every member of the child list. -/
theorem Node.inductionOn {P : Node → Prop}
    (h : ∀ k cs, (∀ x ∈ cs, P x) → P (Node.mk k cs)) : ∀ n, P n
  | .mk k cs => h k cs (fun x hx => Node.inductionOn h x)
termination_by n => sizeOf n
decreasing_by
  have h1 : sizeOf x < sizeOf cs := List.sizeOf_lt_of_mem hx
  simp only [Node.mk.sizeOf_spec]
  omega

theorem countL_append (a b : List Node) : countL (a ++ b) = countL a + countL b := by
  induction a with
  | nil => simp [countL]
  | cons x xs ih => simp [countL, ih]; omega

theorem countN_pos (n : Node) : 1 ≤ countN n := by
  cases n with
  | mk k cs => simp [countN]

theorem walkGo_mem : ∀ (fuel : Nat) (q : List Node) (x n : Node),
    countL q ≤ fuel → n ∈ q → SubNode x n → x ∈ walkGo fuel q := by
  intro fuel
  induction fuel with
  | zero =>
    intro q x n hle hn _
    exfalso
    induction q with
    | nil => exact (List.not_mem_nil n) hn
    | cons a as _ =>
      have := countN_pos a
      simp [countL] at hle
      omega
  | succ fuel ih =>
    intro q x n hle hn hsub
    cases q with
    | nil => exact absurd hn (List.not_mem_nil n)
    | cons m q' =>
      have hcount : countL (q' ++ m.children) ≤ fuel := by
        have : countN m = 1 + countL m.children := by
          cases m with | mk k cs => simp [countN, Node.children]
        simp only [countL] at hle
        rw [countL_append]
        omega
      simp only [walkGo]
      rcases List.mem_cons.mp hn with h1 | h2
      · subst h1
        cases hsub with
        | refl => exact List.mem_cons_self _ _
        | via hxc hc =>
          refine List.mem_cons_of_mem _ (ih (q' ++ _) x _ ?_ ?_ hxc)
          · simpa [Node.children] using hcount
          · simp [Node.children]
            exact Or.inr hc
      · exact List.mem_cons_of_mem _
          (ih (q' ++ m.children) x n hcount (List.mem_append_left _ h2) hsub)

/-- Completeness of the fueled BFS: every node occurring in `t` is
enumerated by `astWalk t`. -/
theorem astWalk_complete {x t : Node} (h : SubNode x t) : x ∈ astWalk t := by
  have hc : countL [t] ≤ countN t := by simp [countL]
  exact walkGo_mem (countN t) [t] x t hc (by simp) h

example : countN (Node.mk .module [Node.mk .ifStmt []]) = 2 := rfl

example : astWalk (Node.mk .module [Node.mk .ifStmt [], Node.mk .boolOp []])
    = [Node.mk .module [Node.mk .ifStmt [], Node.mk .boolOp []],
       Node.mk .ifStmt [], Node.mk .boolOp []] := rfl

/-! ## Association-list lemmas -/
theorem containsKeyA_eq_isSome {α : Type} (l : List (String × α)) (k : String) :
    containsKeyA l k = (lookupA l k).isSome := by
  unfold containsKeyA lookupA
  cases l.find? (fun p => p.1 == k) <;> rfl

theorem lookupA_map_replace_self {α : Type} (l : List (String × α)) (k : String) (v : α)
    (hc : containsKeyA l k = true) :
    lookupA (l.map (fun p => if p.1 == k then (k, v) else p)) k = some v := by
  induction l with
  | nil => simp [containsKeyA, List.find?] at hc
  | cons p tl ih =>
    by_cases hp : (p.1 == k) = true
    · simp [lookupA, List.find?, hp]
    · have hc' : containsKeyA tl k = true := by
        simpa [containsKeyA, List.find?, hp] using hc
      simpa [lookupA, List.find?, hp] using ih hc'

theorem lookupA_map_replace_ne {α : Type} (l : List (String × α)) (k : String) (v : α)
    (m : String) (h : m ≠ k) :
    lookupA (l.map (fun p => if p.1 == k then (k, v) else p)) m = lookupA l m := by
  induction l with
  | nil => rfl
  | cons p tl ih =>
    by_cases hp : (p.1 == k) = true
    · have hpk : p.1 = k := by simpa using hp
      have hpm : (p.1 == m) = false := by
        simp [hpk]; exact fun e => h e.symm
      have hkm : (k == m) = false := by
        simp; exact fun e => h e.symm
      simpa [lookupA, List.find?, hp, hpm, hkm] using ih
    · by_cases hpm : (p.1 == m) = true
      · simp [lookupA, List.find?, hp, hpm]
      · simpa [lookupA, List.find?, hp, hpm] using ih

theorem lookupA_not_contains {α : Type} (l : List (String × α)) (k : String)
    (hc : containsKeyA l k = false) : l.find? (fun p => p.1 == k) = none := by
  unfold containsKeyA at hc
  exact Option.not_isSome_iff_eq_none.mp (by simp [hc])

theorem lookupA_setKeyA_self {α : Type} (l : List (String × α)) (k : String) (v : α) :
    lookupA (setKeyA l k v) k = some v := by
  unfold setKeyA
  by_cases hc : containsKeyA l k = true
  · simpa [hc] using lookupA_map_replace_self l k v hc
  · have hc' : containsKeyA l k = false := by simpa using hc
    simp [hc', lookupA, List.find?_append,
      lookupA_not_contains l k hc', List.find?]

theorem lookupA_setKeyA_ne {α : Type} (l : List (String × α)) (k : String) (v : α)
    (m : String) (h : m ≠ k) : lookupA (setKeyA l k v) m = lookupA l m := by
  unfold setKeyA
  by_cases hc : containsKeyA l k = true
  · simpa [hc] using lookupA_map_replace_ne l k v m h
  · have hkm : (k == m) = false := by
      simp; exact fun e => h e.symm
    simp [hc, lookupA, List.find?_append, List.find?, hkm]

theorem containsKeyA_setKeyA {α : Type} (l : List (String × α)) (k : String) (v : α)
    (m : String) : containsKeyA (setKeyA l k v) m = (containsKeyA l m || (m == k)) := by
  by_cases hmk : m = k
  · subst hmk
    simp [containsKeyA_eq_isSome, lookupA_setKeyA_self]
  · have hb : (m == k) = false := by simpa using hmk
    simp [containsKeyA_eq_isSome, lookupA_setKeyA_ne l k v m hmk, hb]

theorem bumpComp_eq (c : Comp) (k : Kind) :
    bumpComp c k = ⟨c.conditionals + condWeight k, c.loops + loopWeight k,
      c.exceptions + excWeight k, c.boolean_ops + boolWeight k,
      c.function_calls + callWeight k⟩ := by
  cases k <;> simp [bumpComp, condWeight, loopWeight, excWeight, boolWeight, callWeight] <;> omega

theorem visitNode_eq : ∀ n : Node, ∀ c : Comp, visitNode c n = addCounts c n := by
  intro n
  induction n using Node.inductionOn with
  | h k cs ih =>
    have hlist : ∀ c : Comp, visitList c cs =
        ⟨c.conditionals + weightL condWeight cs, c.loops + weightL loopWeight cs,
         c.exceptions + weightL excWeight cs, c.boolean_ops + weightL boolWeight cs,
         c.function_calls + weightL callWeight cs⟩ := by
      clear k
      induction cs with
      | nil => intro c; simp [visitList, weightL]
      | cons x xs ihx =>
        intro c
        have hx := ih x (by simp)
        have hxs := ihx (fun y hy => ih y (by simp [hy]))
        simp only [visitList, hx, hxs, addCounts, weightL, Comp.mk.injEq]
        omega
    intro c
    simp only [visitNode, hlist, bumpComp_eq, addCounts]
    have hwn : ∀ w : Kind → Nat, weightN w (Node.mk k cs) = w k + weightL w cs := by
      intro w; simp [weightN]
    simp only [hwn, Comp.mk.injEq]
    omega

theorem scanRefs_aux (defs : Defs) (lines : List String) (nm : String) (dls : List Nat)
    (hreg : lookupA defs nm = some dls) :
    ∀ (ns : List Node) (refs : List (String × List Ref)),
    (lookupA (ns.foldl (scanStep defs lines) refs) nm).getD []
      = (lookupA refs nm).getD [] ++ refsFor lines nm dls (nameOccs ns) := by
  intro ns
  induction ns with
  | nil => intro refs; simp [nameOccs, refsFor]
  | cons n ns ih =>
    intro refs
    rw [List.foldl_cons]
    cases hk : n.kind
    case nameExpr i l c =>
      cases hdi : lookupA defs i with
      | none =>
        have hin : (i == nm) = false := by
          simp only [beq_eq_false_iff_ne, ne_eq]
          intro he; subst he; rw [hreg] at hdi; cases hdi
        have hstep : scanStep defs lines refs n = refs := by
          simp [scanStep, hk, hdi]
        rw [hstep, ih]
        simp [nameOccs, refsFor, List.filterMap_cons, hk, hin]
      | some d' =>
        by_cases hl : l ∈ d'
        · have hstep : scanStep defs lines refs n = refs := by
            simp [scanStep, hk, hdi, hl]
          rw [hstep, ih]
          by_cases hin : i = nm
          · subst hin
            have hdd : d' = dls := by rw [hreg] at hdi; exact (Option.some_inj.mp hdi).symm
            subst hdd
            simp [nameOccs, refsFor, List.filterMap_cons, hk, hl]
          · have hin' : (i == nm) = false := by simpa using hin
            simp [nameOccs, refsFor, List.filterMap_cons, hk, hin']
        · have hstep : scanStep defs lines refs n
              = setKeyA refs i ((lookupA refs i).getD []
                  ++ [⟨l, c, contextLine lines l⟩]) := by
            simp [scanStep, hk, hdi, hl]
          by_cases hin : i = nm
          · subst hin
            have hdd : d' = dls := by rw [hreg] at hdi; exact (Option.some_inj.mp hdi).symm
            subst hdd
            rw [hstep, ih, lookupA_setKeyA_self]
            simp only [Option.getD_some]
            simp [nameOccs, refsFor, List.filterMap_cons, hk, hl]
          · rw [hstep, ih, lookupA_setKeyA_ne _ _ _ _ (Ne.symm hin)]
            have hin' : (i == nm) = false := by simpa using hin
            simp [nameOccs, refsFor, List.filterMap_cons, hk, hin']
    all_goals {
      have hstep : scanStep defs lines refs n = refs := by simp [scanStep, hk]
      rw [hstep, ih]
      simp [nameOccs, refsFor, List.filterMap_cons, hk]
    }

/-- **C5.**  For every source unit and every registered declaration name,
the position-based scanner records a Reference for an identifier
occurrence of that name exactly when the occurrence's line is not one of
the name's recorded definition lines: the reference list equals the
filtered occurrence list (with column and stripped context), so in
particular no declaration site is ever counted as a reference to itself. -/
theorem C5_reference_scanner (t : Node) (lines : List String) (nm : String)
    (dls : List Nat) (hreg : lookupA (fileDefs t) nm = some dls) :
    (lookupA (referencesOf t lines) nm).getD []
      = refsFor lines nm dls (nameOccs (astWalk t))
    ∧ ∀ r ∈ (lookupA (referencesOf t lines) nm).getD [], r.line ∉ dls := by
  have h := scanRefs_aux (fileDefs t) lines nm dls hreg (astWalk t) []
  have heq : (lookupA (referencesOf t lines) nm).getD []
      = refsFor lines nm dls (nameOccs (astWalk t)) := by
    simpa [referencesOf, scanRefs, lookupA] using h
  refine ⟨heq, ?_⟩
  intro r hr
  rw [heq] at hr
  simp only [refsFor, List.mem_map, List.mem_filter] at hr
  obtain ⟨o, ⟨_, hcond⟩, rfl⟩ := hr
  simp only [Bool.and_eq_true, Bool.not_eq_true', beq_iff_eq] at hcond
  simpa using hcond.2

theorem C5_reference_scanner_witness :
    lookupA (fileDefs c5tree) "C" = some [1]
    ∧ ((lookupA (referencesOf c5tree c5lines) "C").getD []
        = refsFor c5lines "C" [1] (nameOccs (astWalk c5tree))
      ∧ ∀ r ∈ (lookupA (referencesOf c5tree c5lines) "C").getD [], r.line ∉ [1]) :=
  ⟨rfl, C5_reference_scanner c5tree c5lines "C" [1] rfl⟩

/-! ## C6 / C10 apparatus: the shadow set suppresses declarations -/
theorem foldl_pair_fst_mono {β γ : Type} (f : β → String) (g : β → γ) :
    ∀ (als : List β) (acc : List String × List γ) (x : String), x ∈ acc.1 →
      x ∈ (als.foldl (fun acc a => (acc.1 ++ [f a], acc.2 ++ [g a])) acc).1 := by
  intro als
  induction als with
  | nil => intro acc x hx; exact hx
  | cons a as ih =>
    intro acc x hx
    exact ih _ x (by simp [hx])

theorem foldl_pair_fst_mem {β γ : Type} (f : β → String) (g : β → γ) :
    ∀ (als : List β) (acc : List String × List γ) (a : β), a ∈ als →
      f a ∈ (als.foldl (fun acc a => (acc.1 ++ [f a], acc.2 ++ [g a])) acc).1 := by
  intro als
  induction als with
  | nil => intro acc a ha; cases ha
  | cons b bs ih =>
    intro acc a ha
    rcases List.mem_cons.mp ha with h1 | h2
    · subst h1
      exact foldl_pair_fst_mono f g bs _ _ (by simp)
    · exact ih _ a h2

theorem importsStep_shadow_mono (acc : List String × List ImportEntry) (n : Node)
    (x : String) (hx : x ∈ acc.1) : x ∈ (importsStep acc n).1 := by
  cases hk : n.kind <;> simp only [importsStep, hk] <;>
    first
      | exact hx
      | exact foldl_pair_fst_mono _ _ _ _ _ hx

theorem importsStep_binds (acc : List String × List ImportEntry) (n : Node)
    (x : String) (hb : x ∈ importBoundNames n.kind) : x ∈ (importsStep acc n).1 := by
  cases hk : n.kind <;> simp only [importBoundNames, hk] at hb
  case importPlain als ln =>
    obtain ⟨a, ha, rfl⟩ := List.mem_map.mp hb
    simpa only [importsStep, hk] using foldl_pair_fst_mem _ _ als acc a ha
  case importFrom m als ln =>
    obtain ⟨a, ha, rfl⟩ := List.mem_map.mp hb
    simpa only [importsStep, hk] using foldl_pair_fst_mem _ _ als acc a ha
  all_goals cases hb

theorem importsFold_mono : ∀ (ns : List Node) (acc : List String × List ImportEntry)
    (x : String), x ∈ acc.1 → x ∈ (ns.foldl importsStep acc).1 := by
  intro ns
  induction ns with
  | nil => intro acc x hx; exact hx
  | cons n ns ih =>
    intro acc x hx
    exact ih _ x (importsStep_shadow_mono acc n x hx)

theorem importsFold_binds : ∀ (ns : List Node) (acc : List String × List ImportEntry)
    (nd : Node) (x : String), nd ∈ ns → x ∈ importBoundNames nd.kind →
    x ∈ (ns.foldl importsStep acc).1 := by
  intro ns
  induction ns with
  | nil => intro acc nd x h _; cases h
  | cons n ns ih =>
    intro acc nd x h hb
    rcases List.mem_cons.mp h with h1 | h2
    · subst h1
      exact importsFold_mono ns _ x (importsStep_binds acc nd x hb)
    · exact ih _ nd x h2 hb

/-- A name bound by an import node occurring anywhere in the unit is in
the shadow set. -/
theorem mem_shadowOf_of_subnode {t nd : Node} {nm : String}
    (hsub : SubNode nd t) (hb : nm ∈ importBoundNames nd.kind) : nm ∈ shadowOf t :=
  importsFold_binds (astWalk t) ([], []) nd nm (astWalk_complete hsub) hb

theorem classesPass_step_inv (imported : List String)
    (P : ClassEntry → Prop) (hP : ∀ cname ln doc ms, cname ∉ imported → P ⟨cname, ln, doc, ms⟩) :
    ∀ (body : List Node) (acc : List ClassEntry × Defs), (∀ c ∈ acc.1, P c) →
      ∀ c ∈ (body.foldl (fun acc node =>
        match node.kind with
        | .classDef cname ln doc =>
          if cname ∈ imported then acc
          else
            let defs1 := addDefLine acc.2 cname ln
            let md := methodsFold node.children defs1
            (acc.1 ++ [⟨cname, ln, doc, md.1⟩], md.2)
        | _ => acc) acc).1, P c := by
  intro body
  induction body with
  | nil => intro acc hacc c hc; exact hacc c hc
  | cons node rest ih =>
    intro acc hacc c hc
    refine ih _ ?_ c hc
    intro c' hc'
    cases hk : node.kind <;> simp only [hk] at hc'
    case classDef cname ln doc =>
      by_cases hin : cname ∈ imported
      · exact hacc c' (by simpa [hin] using hc')
      · simp only [hin, if_false] at hc'
        rcases List.mem_append.mp hc' with h1 | h2
        · exact hacc c' h1
        · simp only [List.mem_singleton] at h2
          subst h2
          exact hP _ _ _ _ hin
    all_goals exact hacc c' hc'

/-- Every extracted class entry's name avoids the shadow set. -/
theorem classesOf_not_shadowed (t : Node) :
    ∀ c ∈ classesOf t, c.name ∉ shadowOf t := by
  intro c hc
  have := classesPass_step_inv (shadowOf t) (fun c => c.name ∉ shadowOf t)
    (fun cname ln doc ms h => h) t.children ([], []) (by intro c h; cases h) c
  exact this (by simpa [classesOf, classesPass] using hc)

theorem functionsPass_step_inv (imported : List String) (classes : List ClassEntry)
    (P : FuncEntry → Prop)
    (hP : ∀ fn ln doc ps, fn ∉ imported → isMethodOf classes fn ln = false → P ⟨fn, ln, doc, ps⟩) :
    ∀ (body : List Node) (acc : List FuncEntry × Defs), (∀ g ∈ acc.1, P g) →
      ∀ g ∈ (body.foldl (fun acc node =>
        match node.kind with
        | .functionDef fn ln doc ps =>
          if fn ∈ imported then acc
          else if isMethodOf classes fn ln then acc
          else (acc.1 ++ [⟨fn, ln, doc, ps⟩], addDefLine acc.2 fn ln)
        | _ => acc) acc).1, P g := by
  intro body
  induction body with
  | nil => intro acc hacc g hg; exact hacc g hg
  | cons node rest ih =>
    intro acc hacc g hg
    refine ih _ ?_ g hg
    intro g' hg'
    cases hk : node.kind <;> simp only [hk] at hg'
    case functionDef fn ln doc ps =>
      by_cases hin : fn ∈ imported
      · exact hacc g' (by simpa [hin] using hg')
      · by_cases hm : isMethodOf classes fn ln = true
        · exact hacc g' (by simpa [hin, hm] using hg')
        · simp only [hin, if_false, hm] at hg'
          rcases List.mem_append.mp hg' with h1 | h2
          · exact hacc g' h1
          · simp only [List.mem_singleton] at h2
            subst h2
            exact hP _ _ _ _ hin (by simpa using hm)
    all_goals exact hacc g' hg'

/-- Every extracted function entry's name avoids the shadow set. -/
theorem functionsOf_not_shadowed (t : Node) :
    ∀ g ∈ functionsOf t, g.name ∉ shadowOf t := by
  intro g hg
  have := functionsPass_step_inv (shadowOf t) (classesOf t)
    (fun g => g.name ∉ shadowOf t) (fun fn ln doc ps h _ => h)
    t.children ([], defsAfterClasses t) (by intro g h; cases h) g
  exact this (by simpa [functionsOf, functionsPass] using hg)

theorem variablesPass_step_inv (imported : List String)
    (P : VarEntry → Prop) (hP : ∀ id ln, id ∉ imported → P ⟨id, ln⟩) :
    ∀ (body : List Node) (acc : List VarEntry × Defs), (∀ v ∈ acc.1, P v) →
      ∀ v ∈ (body.foldl (fun acc node =>
        match node.kind with
        | .assign tgts _ =>
          tgts.foldl (fun acc t =>
            match t with
            | .nameT id ln =>
              if id ∈ imported then acc
              else (acc.1 ++ [⟨id, ln⟩], addDefLine acc.2 id ln)
            | .otherT => acc) acc
        | _ => acc) acc).1, P v := by
  have inner : ∀ (tgts : List AssignTarget) (acc : List VarEntry × Defs),
      (∀ v ∈ acc.1, P v) →
      ∀ v ∈ (tgts.foldl (fun acc t =>
        match t with
        | AssignTarget.nameT id ln =>
          if id ∈ imported then acc
          else (acc.1 ++ [⟨id, ln⟩], addDefLine acc.2 id ln)
        | AssignTarget.otherT => acc) acc).1, P v := by
    intro tgts
    induction tgts with
    | nil => intro acc hacc v hv; exact hacc v hv
    | cons tg rest ih =>
      intro acc hacc v hv
      refine ih _ ?_ v hv
      intro v' hv'
      cases tg with
      | nameT id ln =>
        by_cases hin : id ∈ imported
        · exact hacc v' (by simpa [hin] using hv')
        · simp only [hin, if_false] at hv'
          rcases List.mem_append.mp hv' with h1 | h2
          · exact hacc v' h1
          · simp only [List.mem_singleton] at h2
            subst h2
            exact hP _ _ hin
      | otherT => exact hacc v' hv'
  intro body
  induction body with
  | nil => intro acc hacc v hv; exact hacc v hv
  | cons node rest ih =>
    intro acc hacc v hv
    refine ih _ ?_ v hv
    intro v' hv'
    cases hk : node.kind <;> simp only [hk] at hv'
    case assign tgts ln => exact inner tgts acc hacc v' hv'
    all_goals exact hacc v' hv'

/-- Every extracted variable entry's name avoids the shadow set. -/
theorem variablesOf_not_shadowed (t : Node) :
    ∀ v ∈ variablesOf t, v.name ∉ shadowOf t := by
  intro v hv
  have := variablesPass_step_inv (shadowOf t) (fun v => v.name ∉ shadowOf t)
    (fun id ln h => h) t.children ([], defsAfterFunctions t)
    (by intro v h; cases h) v
  exact this (by simpa [variablesOf, variablesPass] using hv)

/-- A shadowed name appears in none of the three declaration collections. -/
theorem shadow_suppresses (t : Node) (nm : String) (hsh : nm ∈ shadowOf t) :
    (∀ c ∈ classesOf t, c.name ≠ nm) ∧ (∀ g ∈ functionsOf t, g.name ≠ nm)
      ∧ (∀ v ∈ variablesOf t, v.name ≠ nm) := by
  refine ⟨fun c hc he => ?_, fun g hg he => ?_, fun v hv he => ?_⟩
  · exact classesOf_not_shadowed t c hc (he ▸ hsh)
  · exact functionsOf_not_shadowed t g hg (he ▸ hsh)
  · exact variablesOf_not_shadowed t v hv (he ▸ hsh)

/-- The collections of a successful analysis are the extraction passes'
outputs. -/
theorem analyze_ok_fields (f : PyFile) (t : Node) (hp : f.parsed = Except.ok t)
    (r : FileOk) (hr : analyze_python_file f = FileResult.ok r) :
    r.classes = classesOf t ∧ r.functions = functionsOf t
      ∧ r.variableDecls = variablesOf t ∧ r.imports = some (importEntriesOf t) := by
  simp only [analyze_python_file, hp, FileResult.ok.injEq] at hr
  subst hr
  exact ⟨rfl, rfl, rfl, rfl⟩

/-- **C6.**  A name in the shadow set (bound by any import statement of
the unit) never appears in the `classes`, `functions` or `variables`
collections of the resulting FileAnalysis, even if a same-named
declaration exists syntactically at module level. -/
theorem C6_shadowed_names_never_declared (f : PyFile) (t : Node)
    (hp : f.parsed = Except.ok t) (r : FileOk)
    (hr : analyze_python_file f = FileResult.ok r)
    (nm : String) (hsh : nm ∈ shadowOf t) :
    (∀ c ∈ r.classes, c.name ≠ nm) ∧ (∀ g ∈ r.functions, g.name ≠ nm)
      ∧ (∀ v ∈ r.variableDecls, v.name ≠ nm) := by
  obtain ⟨hc, hf, hv, _⟩ := analyze_ok_fields f t hp r hr
  rw [hc, hf, hv]
  exact shadow_suppresses t nm hsh

theorem C6_shadowed_names_never_declared_witness :
    c6file.parsed = Except.ok c6tree
    ∧ analyze_python_file c6file = FileResult.ok (okFile (analyze_python_file c6file))
    ∧ "foo" ∈ shadowOf c6tree
    ∧ ((∀ c ∈ (okFile (analyze_python_file c6file)).classes, c.name ≠ "foo")
      ∧ (∀ g ∈ (okFile (analyze_python_file c6file)).functions, g.name ≠ "foo")
      ∧ (∀ v ∈ (okFile (analyze_python_file c6file)).variableDecls, v.name ≠ "foo")) :=
  ⟨rfl, rfl, by decide,
    C6_shadowed_names_never_declared c6file c6tree rfl _ rfl "foo" (by decide)⟩

/-- **C10.**  The shadow set includes names bound by import statements at
any nesting depth: an import occurring anywhere inside the unit (e.g. in
a function body) also suppresses extraction of any same-named top-level
class, function or variable declaration. -/
theorem C10_nested_imports_shadow (f : PyFile) (t : Node)
    (hp : f.parsed = Except.ok t) (r : FileOk)
    (hr : analyze_python_file f = FileResult.ok r)
    (nd : Node) (hsub : SubNode nd t) (nm : String)
    (hb : nm ∈ importBoundNames nd.kind) :
    (∀ c ∈ r.classes, c.name ≠ nm) ∧ (∀ g ∈ r.functions, g.name ≠ nm)
      ∧ (∀ v ∈ r.variableDecls, v.name ≠ nm) := by
  obtain ⟨hc, hf, hv, _⟩ := analyze_ok_fields f t hp r hr
  rw [hc, hf, hv]
  exact shadow_suppresses t nm (mem_shadowOf_of_subnode hsub hb)

theorem C10_nested_imports_shadow_witness :
    c10file.parsed = Except.ok c10tree
    ∧ analyze_python_file c10file = FileResult.ok (okFile (analyze_python_file c10file))
    ∧ "foo" ∈ importBoundNames c10import.kind
    ∧ ((∀ c ∈ (okFile (analyze_python_file c10file)).classes, c.name ≠ "foo")
      ∧ (∀ g ∈ (okFile (analyze_python_file c10file)).functions, g.name ≠ "foo")
      ∧ (∀ v ∈ (okFile (analyze_python_file c10file)).variableDecls, v.name ≠ "foo")) :=
  ⟨rfl, rfl, by decide,
    C10_nested_imports_shadow c10file c10tree rfl _ rfl c10import
      (SubNode.via (SubNode.refl c10import) (by simp)
        |>.via (List.mem_cons_self _ _))
      "foo" (by decide)⟩

theorem functionsPass_fst_aux (imported : List String) (classes : List ClassEntry) :
    ∀ (body : List Node) (acc : List FuncEntry × Defs),
    (body.foldl (fun acc node =>
      match node.kind with
      | .functionDef fn ln doc ps =>
        if fn ∈ imported then acc
        else if isMethodOf classes fn ln then acc
        else (acc.1 ++ [⟨fn, ln, doc, ps⟩], addDefLine acc.2 fn ln)
      | _ => acc) acc).1
      = acc.1 ++ body.filterMap (funcEntryOf imported classes) := by
  intro body
  induction body with
  | nil => intro acc; simp
  | cons nd rest ih =>
    intro acc
    rw [List.foldl_cons]
    cases hk : nd.kind <;>
      simp only [hk, funcEntryOf, List.filterMap_cons, ih, List.append_nil]
    case functionDef fn ln doc ps =>
      by_cases hin : fn ∈ imported
      · simp [hin]
      · by_cases hm : isMethodOf classes fn ln = true
        · simp [hin, hm]
        · simp only [Bool.not_eq_true] at hm
          simp [hin, hm]

/-- The functions collection is the filter-map of the top-level body. -/
theorem functionsOf_eq (t : Node) :
    functionsOf t = t.children.filterMap (funcEntryOf (shadowOf t) (classesOf t)) := by
  have h := functionsPass_fst_aux (shadowOf t) (classesOf t) t.children
    ([], defsAfterClasses t)
  simpa [functionsOf, functionsPass] using h

/-- `isMethodOf` decides the existential the dedup rule speaks about. -/
theorem isMethodOf_iff (classes : List ClassEntry) (nm : String) (ln : Nat) :
    isMethodOf classes nm ln = true
      ↔ ∃ c ∈ classes, ∃ m ∈ c.methods, m.name = nm ∧ m.line = ln := by
  simp [isMethodOf, List.any_eq_true, Bool.and_eq_true, beq_iff_eq]

/-- **C7 (amended).**  Among top-level function definitions whose name is
not in the shadow set, a definition is omitted from the functions
collection exactly when some extracted class contains a method with
identical name and identical starting line; a function matching a method
by name only (different line) still appears. -/
theorem C7_function_method_dedup (t : Node) (nm : String) (ln : Nat)
    (hns : nm ∉ shadowOf t)
    (hnode : ∃ nd ∈ t.children, funcDefNameLine nd.kind = some (nm, ln)) :
    ((∃ fe ∈ functionsOf t, fe.name = nm ∧ fe.line = ln) ↔
      ¬ ∃ c ∈ classesOf t, ∃ m ∈ c.methods, m.name = nm ∧ m.line = ln) := by
  rw [functionsOf_eq]
  constructor
  · rintro ⟨fe, hfe, hnm, hln⟩ hex
    obtain ⟨nd, _, hval⟩ := List.mem_filterMap.mp hfe
    rw [← isMethodOf_iff] at hex
    unfold funcEntryOf at hval
    cases hk : nd.kind <;> rw [hk] at hval <;> try cases hval
    case functionDef fn ln' doc ps =>
      by_cases hin : fn ∈ shadowOf t
      · simp [hin] at hval
      · by_cases hm : isMethodOf (classesOf t) fn ln' = true
        · simp [hin, hm] at hval
        · simp only [hin, if_false, hm, Bool.false_eq_true, Option.some_inj] at hval
          have : fn = nm ∧ ln' = ln := by
            constructor
            · rw [← hval] at hnm; exact hnm
            · rw [← hval] at hln; exact hln
          rcases this with ⟨rfl, rfl⟩
          exact hm hex
  · intro hnm
    obtain ⟨nd, hmem, hval⟩ := hnode
    rw [← isMethodOf_iff] at hnm
    have hmf : isMethodOf (classesOf t) nm ln = false := by
      cases h : isMethodOf (classesOf t) nm ln
      · rfl
      · exact absurd h hnm
    cases hk : nd.kind
    case functionDef fn ln' doc ps =>
      rw [hk] at hval
      simp only [funcDefNameLine, Option.some_inj, Prod.mk.injEq] at hval
      rcases hval with ⟨rfl, rfl⟩
      refine ⟨⟨fn, ln', doc, ps⟩, ?_, rfl, rfl⟩
      refine List.mem_filterMap.mpr ⟨nd, hmem, ?_⟩
      simp [funcEntryOf, hk, hns, hmf]
    all_goals (rw [hk] at hval; cases hval)

/-- **C7 counterexample.**  In `c7tree`, `def foo` is omitted from the
functions collection (its name is shadowed by the import) although no
extracted class contains a matching method, refuting the stated iff. -/
theorem C7_counterexample : ¬ C7ClaimAt c7tree := by
  unfold C7ClaimAt
  decide

theorem C7_function_method_dedup_witness :
    ("h" ∉ shadowOf c7wtree)
    ∧ (∃ nd ∈ c7wtree.children, funcDefNameLine nd.kind = some ("h", 5))
    ∧ ((∃ fe ∈ functionsOf c7wtree, fe.name = "h" ∧ fe.line = 5) ↔
        ¬ ∃ c ∈ classesOf c7wtree, ∃ m ∈ c.methods, m.name = "h" ∧ m.line = 5) :=
  ⟨by decide, by decide,
    C7_function_method_dedup c7wtree "h" 5 (by decide) (by decide)⟩

/-- **C1 (code-bug evidence).**  A per-file parse failure aborts the whole
directory scan instead of being recorded and skipped: the error-shaped
result has no `structure`/`summary` keys, so the loop's
`file_result['structure'].pop(...)` (default options) or
`file_result['summary'].items()` (with `include_imports=True`) raises
`KeyError`, modelled as `Except.error`, and no directory result is
produced at all. -/
theorem C1_parse_failure_aborts_directory_scan :
    analyze_python_directory "d" [c1bad, c1good] false false false
        = Except.error "KeyError: structure"
    ∧ analyze_python_directory "d" [c1bad, c1good] true false false
        = Except.error "KeyError: summary" :=
  ⟨rfl, rfl⟩

/-- **C2 (code-bug evidence).**  With `exclude_tests` disabled, a file
named `*_test.py` is still skipped: Python's `and` binds tighter than
`or`, so the skip condition reads `(exclude_tests and
startswith('test_')) or endswith('_test.py')` and the suffix arm is
unguarded.  A directory holding only a parseable `foo_test.py` therefore
yields no file entry. -/
theorem C2_test_suffix_skipped_without_option :
    testSkip false "foo_test.py" = true
    ∧ (okDir (analyze_python_directory "d" [c2testfile] false false false)).files = []
    ∧ (okDir (analyze_python_directory "d" [c2testfile] false false false)).summary
        = zeroSummary :=
  ⟨rfl, rfl, rfl⟩

theorem dirFold_ok_char (ii et : Bool) :
    ∀ (files : List PyFile) (acc out : List FileOk × Summary),
    List.foldlM (dirStep ii et) acc files = Except.ok out →
    out.1 = acc.1 ++ processedFiles ii et files
    ∧ out.2 = (processedFiles ii et files).foldl
        (fun s fr => addSummary s fr.summary) acc.2 := by
  intro files
  induction files with
  | nil =>
    intro acc out h
    simp only [List.foldlM_nil] at h
    cases h
    simp [processedFiles]
  | cons f fs ih =>
    intro acc out h
    rw [List.foldlM_cons] at h
    by_cases hpy : strEndsWith f.filename ".py" = true
    · by_cases hts : testSkip et f.filename = true
      · have hstep : dirStep ii et acc f = Except.ok acc := by
          simp [dirStep, hpy, hts]
        rw [hstep] at h
        have hkeep : keepFile et f = false := by simp [keepFile, hpy, hts]
        have := ih acc out (by simpa using h)
        simpa [processedFiles, List.filter_cons, hkeep] using this
      · cases ha : analyze_python_file f with
        | err fn e =>
          have hstep : dirStep ii et acc f = Except.error
              (if ii then "KeyError: summary" else "KeyError: structure") := by
            simp [dirStep, hpy, hts, ha]
          rw [hstep] at h
          have hred : (Except.error (α := List FileOk × Summary)
              (if ii then "KeyError: summary" else "KeyError: structure")
                >>= fun a => List.foldlM (dirStep ii et) a fs)
              = Except.error (ε := String)
                  (if ii then "KeyError: summary" else "KeyError: structure") := rfl
          rw [hred] at h
          cases h
        | ok r =>
          have hstep : dirStep ii et acc f = Except.ok
              (acc.1 ++ [if ii then r else stripImports r],
               addSummary acc.2 (if ii then r else stripImports r).summary) := by
            by_cases hii : ii = true <;> simp [dirStep, hpy, hts, ha, hii]
          rw [hstep] at h
          have hkeep : keepFile et f = true := by simp [keepFile, hpy, hts]
          have hproc : processedOf ii f = some (if ii then r else stripImports r) := by
            simp [processedOf, ha]
          have := ih _ out (by simpa using h)
          rcases this with ⟨h1, h2⟩
          constructor
          · simp only [processedFiles, List.filter_cons, hkeep, if_true,
              List.filterMap_cons, hproc] at h1 ⊢
            simpa [List.append_assoc] using h1
          · simp only [processedFiles, List.filter_cons, hkeep, if_true,
              List.filterMap_cons, hproc, List.foldl_cons] at h2 ⊢
            exact h2
    · have hstep : dirStep ii et acc f = Except.ok acc := by
        simp [dirStep, hpy]
      rw [hstep] at h
      have hkeep : keepFile et f = false := by simp [keepFile, hpy]
      have := ih acc out (by simpa using h)
      simpa [processedFiles, List.filter_cons, hkeep] using this

/-- A successful directory analysis, decomposed into the pure pipeline. -/
theorem analyze_dir_ok (d : String) (files : List PyFile) (ii ic et : Bool)
    (r : CodebaseResult)
    (h : analyze_python_directory d files ii ic et = Except.ok r) :
    r.files = processedFiles ii et files
    ∧ r.summary = (processedFiles ii et files).foldl
        (fun s fr => addSummary s fr.summary) zeroSummary
    ∧ r.avg_complexity = round2
        ((((processedFiles ii et files).map (fun fr => fr.metrics.complexity)).sum : ℚ)
          / ((if (processedFiles ii et files).length = 0 then 1
              else (processedFiles ii et files).length : Nat) : ℚ))
    ∧ r.module_dependencies
        = find_module_dependencies ((processedFiles ii et files).map FileResult.ok) := by
  unfold analyze_python_directory at h
  cases hm : List.foldlM (dirStep ii et) ([], zeroSummary) files with
  | error e => rw [hm] at h; cases h
  | ok acc =>
    rw [hm] at h
    obtain ⟨h1, h2⟩ := dirFold_ok_char ii et files ([], zeroSummary) acc hm
    simp only [List.nil_append] at h1
    cases h
    refine ⟨h1, h2, ?_, ?_⟩
    · simp [h1, Function.comp_def]
    · simp [h1]

theorem processed_mem_stripped (et : Bool) (files : List PyFile) :
    ∀ fr ∈ processedFiles false et files,
      fr.imports = none ∧ fr.summary.import_count = 0 := by
  intro fr hfr
  obtain ⟨f, _, hval⟩ := List.mem_filterMap.mp hfr
  unfold processedOf at hval
  cases ha : analyze_python_file f <;> rw [ha] at hval
  · cases hval
  · simp only [Bool.false_eq_true, if_false, Option.some_inj] at hval
    cases hval
    simp [stripImports]

theorem fold_import_count : ∀ (l : List FileOk) (z : Summary),
    (∀ fr ∈ l, fr.summary.import_count = 0) →
    (l.foldl (fun s fr => addSummary s fr.summary) z).import_count
      = z.import_count := by
  intro l
  induction l with
  | nil => intro z _; rfl
  | cons fr rest ih =>
    intro z hz
    rw [List.foldl_cons, ih _ (fun g hg => hz g (by simp [hg]))]
    have h0 : fr.summary.import_count = 0 := hz fr (by simp)
    simp [addSummary, h0]

theorem mem_setKeyA {α : Type} (l : List (String × α)) (k : String) (v : α)
    (p : String × α) (hp : p ∈ setKeyA l k v) : p ∈ l ∨ p = (k, v) := by
  unfold setKeyA at hp
  by_cases hc : containsKeyA l k = true
  · rw [if_pos hc] at hp
    obtain ⟨q, hq, hval⟩ := List.mem_map.mp hp
    by_cases hqk : (q.1 == k) = true
    · rw [if_pos hqk] at hval; exact Or.inr hval.symm
    · rw [if_neg (by simp [hqk])] at hval; exact Or.inl (hval ▸ hq)
  · rw [if_neg hc] at hp
    rcases List.mem_append.mp hp with h1 | h2
    · exact Or.inl h1
    · exact Or.inr (List.mem_singleton.mp h2)

theorem fmd_values_nil : ∀ (frs : List FileResult)
    (deps : List (String × List String)),
    (∀ f ∈ frs, importsOf f = []) → (∀ p ∈ deps, p.2 = ([] : List String)) →
    ∀ p ∈ frs.foldl (fun deps f =>
        fmdInner (fmdName f) (setKeyA deps (fmdName f) []) (importsOf f)) deps,
      p.2 = [] := by
  intro frs
  induction frs with
  | nil => intro deps _ hd p hp; exact hd p hp
  | cons f rest ih =>
    intro deps hf hd p hp
    rw [List.foldl_cons] at hp
    have h0 : importsOf f = [] := hf f (by simp)
    rw [h0] at hp
    refine ih _ (fun g hg => hf g (by simp [hg])) ?_ p hp
    intro q hq
    rcases mem_setKeyA _ _ _ q hq with h1 | h2
    · exact hd q h1
    · rw [h2]

/-- **C9.**  With `include_imports` left at its default `false`, every
completed directory analysis has every file's `imports` collection
removed and its `import_count` zeroed before aggregation and dependency
derivation, so the directory `import_count` is 0 and
`module_dependencies` maps every analyzed module to the empty list,
whatever the files actually import. -/
theorem C9_imports_stripped_by_default (d : String) (files : List PyFile)
    (ic et : Bool) (r : CodebaseResult)
    (h : analyze_python_directory d files false ic et = Except.ok r) :
    r.summary.import_count = 0
    ∧ (∀ fr ∈ r.files, fr.imports = none ∧ fr.summary.import_count = 0)
    ∧ (∀ p ∈ r.module_dependencies, p.2 = []) := by
  obtain ⟨hf, hs, _, hm⟩ := analyze_dir_ok d files false ic et r h
  have hmem := processed_mem_stripped et files
  refine ⟨?_, ?_, ?_⟩
  · rw [hs, fold_import_count _ _ (fun fr hfr => (hmem fr hfr).2)]
    rfl
  · rw [hf]; exact hmem
  · rw [hm]
    unfold find_module_dependencies
    refine fmd_values_nil _ [] ?_ (by intro p hp; cases hp)
    intro g hg
    obtain ⟨fr, hfr, rfl⟩ := List.mem_map.mp hg
    simp [importsOf, (hmem fr hfr).1]

theorem C9_imports_stripped_by_default_witness :
    analyze_python_directory "d" [c9file] false false false
        = Except.ok (okDir (analyze_python_directory "d" [c9file] false false false))
    ∧ ((okDir (analyze_python_directory "d" [c9file] false false false)).summary.import_count = 0
      ∧ (∀ fr ∈ (okDir (analyze_python_directory "d" [c9file] false false false)).files,
          fr.imports = none ∧ fr.summary.import_count = 0)
      ∧ (∀ p ∈ (okDir (analyze_python_directory "d" [c9file] false false false)).module_dependencies,
          p.2 = [])) :=
  ⟨rfl, C9_imports_stripped_by_default "d" [c9file] false false _ rfl⟩

/-! ## C8: order independence of the aggregated totals -/
theorem foldl_addSummary_sum : ∀ (l : List FileOk) (z : Summary),
    l.foldl (fun s fr => addSummary s fr.summary) z
      = ⟨z.class_count + (l.map (fun fr => fr.summary.class_count)).sum,
         z.method_count + (l.map (fun fr => fr.summary.method_count)).sum,
         z.function_count + (l.map (fun fr => fr.summary.function_count)).sum,
         z.import_count + (l.map (fun fr => fr.summary.import_count)).sum,
         z.variable_count + (l.map (fun fr => fr.summary.variable_count)).sum,
         z.unused_count + (l.map (fun fr => fr.summary.unused_count)).sum⟩ := by
  intro l
  induction l with
  | nil => intro z; simp
  | cons fr rest ih =>
    intro z
    rw [List.foldl_cons, ih]
    simp only [List.map_cons, List.sum_cons, addSummary, Summary.mk.injEq]
    omega

/-- **C8.**  Directory aggregation is order-independent on the final
totals: two completed analyses of permuted file listings have identical
per-key summary counts and identical `avg_complexity`. -/
theorem C8_aggregation_order_independent (d : String)
    (files1 files2 : List PyFile) (hperm : files1.Perm files2)
    (ii ic et : Bool) (r1 r2 : CodebaseResult)
    (h1 : analyze_python_directory d files1 ii ic et = Except.ok r1)
    (h2 : analyze_python_directory d files2 ii ic et = Except.ok r2) :
    r1.summary = r2.summary ∧ r1.avg_complexity = r2.avg_complexity := by
  obtain ⟨_, hs1, ha1, _⟩ := analyze_dir_ok d files1 ii ic et r1 h1
  obtain ⟨_, hs2, ha2, _⟩ := analyze_dir_ok d files2 ii ic et r2 h2
  have hp : (processedFiles ii et files1).Perm (processedFiles ii et files2) :=
    (hperm.filter (keepFile et)).filterMap (processedOf ii)
  constructor
  · rw [hs1, hs2, foldl_addSummary_sum, foldl_addSummary_sum]
    simp only [Summary.mk.injEq]
    refine ⟨?_, ?_, ?_, ?_, ?_, ?_⟩ <;> rw [List.Perm.sum_eq (hp.map _)]
  · rw [ha1, ha2,
      List.Perm.sum_eq (hp.map (fun fr => (fr.metrics.complexity : ℚ))),
      hp.length_eq]

theorem C8_aggregation_order_independent_witness :
    [c8a, c8b].Perm [c8b, c8a]
    ∧ analyze_python_directory "d" [c8a, c8b] false false false
        = Except.ok (okDir (analyze_python_directory "d" [c8a, c8b] false false false))
    ∧ analyze_python_directory "d" [c8b, c8a] false false false
        = Except.ok (okDir (analyze_python_directory "d" [c8b, c8a] false false false))
    ∧ ((okDir (analyze_python_directory "d" [c8a, c8b] false false false)).summary
          = (okDir (analyze_python_directory "d" [c8b, c8a] false false false)).summary
      ∧ (okDir (analyze_python_directory "d" [c8a, c8b] false false false)).avg_complexity
          = (okDir (analyze_python_directory "d" [c8b, c8a] false false false)).avg_complexity) :=
  ⟨List.Perm.swap c8b c8a [], rfl, rfl,
    C8_aggregation_order_independent "d" [c8a, c8b] [c8b, c8a]
      (List.Perm.swap c8b c8a []) false false false _ _ rfl rfl⟩

theorem fmdInner_lookup_ne : ∀ (imps : List ImportEntry) (name : String)
    (deps : List (String × List String)) (x : String), x ≠ name →
    lookupA (fmdInner name deps imps) x = lookupA deps x := by
  intro imps
  induction imps with
  | nil => intro name deps x _; rfl
  | cons imp imps ih =>
    intro name deps x hx
    unfold fmdInner
    rw [List.foldl_cons]
    by_cases hb : (rootModOf imp != "" && rootModOf imp != name
        && containsKeyA deps (rootModOf imp)
        && !(((lookupA deps name).getD []).contains (rootModOf imp))) = true
    · rw [if_pos hb]
      have := ih name (setKeyA deps name ((lookupA deps name).getD [] ++ [rootModOf imp])) x hx
      unfold fmdInner at this
      rw [this, lookupA_setKeyA_ne _ _ _ _ hx]
    · rw [if_neg hb]
      have := ih name deps x hx
      unfold fmdInner at this
      exact this

theorem fmdInner_contains : ∀ (imps : List ImportEntry) (name : String)
    (deps : List (String × List String)), containsKeyA deps name = true →
    ∀ m, containsKeyA (fmdInner name deps imps) m = containsKeyA deps m := by
  intro imps
  induction imps with
  | nil => intro name deps _ m; rfl
  | cons imp imps ih =>
    intro name deps hc m
    unfold fmdInner
    rw [List.foldl_cons]
    by_cases hb : (rootModOf imp != "" && rootModOf imp != name
        && containsKeyA deps (rootModOf imp)
        && !(((lookupA deps name).getD []).contains (rootModOf imp))) = true
    · rw [if_pos hb]
      have hkeys : ∀ m', containsKeyA
          (setKeyA deps name ((lookupA deps name).getD [] ++ [rootModOf imp])) m'
            = containsKeyA deps m' := by
        intro m'
        rw [containsKeyA_setKeyA]
        by_cases hm : m' = name
        · subst hm; simp [hc]
        · simp [hm]
      have hc' : containsKeyA
          (setKeyA deps name ((lookupA deps name).getD [] ++ [rootModOf imp])) name
            = true := by rw [hkeys]; exact hc
      have := ih name _ hc' m
      unfold fmdInner at this
      rw [this, hkeys]
    · rw [if_neg hb]
      have := ih name deps hc m
      unfold fmdInner at this
      exact this

theorem fmdInner_lookup_self : ∀ (imps : List ImportEntry) (name : String)
    (deps : List (String × List String)) (acc : List String) (keyF : String → Bool),
    lookupA deps name = some acc → (∀ m, containsKeyA deps m = keyF m) →
    keyF name = true →
    lookupA (fmdInner name deps imps) name = some (fileDepsAux keyF name acc imps) := by
  intro imps
  induction imps with
  | nil =>
    intro name deps acc keyF h1 _ _
    simpa [fmdInner, fileDepsAux] using h1
  | cons imp imps ih =>
    intro name deps acc keyF h1 h2 h3
    unfold fmdInner
    rw [List.foldl_cons]
    unfold fileDepsAux
    have hcond : (rootModOf imp != "" && rootModOf imp != name
        && containsKeyA deps (rootModOf imp)
        && !(((lookupA deps name).getD []).contains (rootModOf imp)))
      = (rootModOf imp != "" && rootModOf imp != name && keyF (rootModOf imp)
        && !(acc.contains (rootModOf imp))) := by
      rw [h1, h2]
      rfl
    rw [hcond]
    by_cases hb : (rootModOf imp != "" && rootModOf imp != name && keyF (rootModOf imp)
        && !(acc.contains (rootModOf imp))) = true
    · rw [if_pos hb, if_pos hb]
      have h1' : lookupA (setKeyA deps name ((lookupA deps name).getD []
          ++ [rootModOf imp])) name = some (acc ++ [rootModOf imp]) := by
        rw [lookupA_setKeyA_self, h1]
        rfl
      have h2' : ∀ m, containsKeyA (setKeyA deps name ((lookupA deps name).getD []
          ++ [rootModOf imp])) m = keyF m := by
        intro m
        rw [containsKeyA_setKeyA]
        by_cases hm : m = name
        · subst hm; simp [h3]
        · simp [hm, h2 m]
      have := ih name _ _ keyF h1' h2' h3
      unfold fmdInner at this
      exact this
    · rw [if_neg hb, if_neg hb]
      have := ih name deps acc keyF h1 h2 h3
      unfold fmdInner at this
      exact this

theorem fileDepsAux_mem : ∀ (imps : List ImportEntry) (keyF : String → Bool)
    (name : String) (acc : List String) (M : String),
    M ∈ fileDepsAux keyF name acc imps
      ↔ M ∈ acc ∨ (M ≠ "" ∧ M ≠ name ∧ keyF M = true
          ∧ ∃ imp ∈ imps, rootModOf imp = M) := by
  intro imps
  induction imps with
  | nil =>
    intro keyF name acc M
    simp [fileDepsAux]
  | cons imp imps ih =>
    intro keyF name acc M
    unfold fileDepsAux
    by_cases hb : (rootModOf imp != "" && rootModOf imp != name && keyF (rootModOf imp)
        && !(acc.contains (rootModOf imp))) = true
    · rw [if_pos hb, ih]
      simp only [Bool.and_eq_true, bne_iff_ne, ne_eq, Bool.not_eq_true'] at hb
      obtain ⟨⟨⟨hne, hnn⟩, hk⟩, hnc⟩ := hb
      constructor
      · rintro (hacc | hrest)
        · rcases List.mem_append.mp hacc with h1 | h2
          · exact Or.inl h1
          · have hM : M = rootModOf imp := List.mem_singleton.mp h2
            subst hM
            exact Or.inr ⟨hne, hnn, hk, imp, by simp⟩
        · obtain ⟨hMe, hMn, hMk, imp', hmem, hroot⟩ := hrest
          exact Or.inr ⟨hMe, hMn, hMk, imp', by simp [hmem], hroot⟩
      · rintro (hacc | ⟨hMe, hMn, hMk, imp', hmem, hroot⟩)
        · exact Or.inl (List.mem_append.mpr (Or.inl hacc))
        · rcases List.mem_cons.mp hmem with h1 | h2
          · subst h1
            subst hroot
            exact Or.inl (List.mem_append.mpr (Or.inr (by simp)))
          · exact Or.inr ⟨hMe, hMn, hMk, imp', h2, hroot⟩
    · rw [if_neg hb, ih]
      constructor
      · rintro (hacc | ⟨hMe, hMn, hMk, imp', hmem, hroot⟩)
        · exact Or.inl hacc
        · exact Or.inr ⟨hMe, hMn, hMk, imp', by simp [hmem], hroot⟩
      · rintro (hacc | ⟨hMe, hMn, hMk, imp', hmem, hroot⟩)
        · exact Or.inl hacc
        · rcases List.mem_cons.mp hmem with h1 | h2
          · subst h1
            rw [hroot] at hb
            have hb' : (M != "" && M != name && keyF M && !acc.contains M) = false := by
              cases hx : (M != "" && M != name && keyF M && !acc.contains M)
              · rfl
              · exact absurd hx hb
            have hMe' : (M != "") = true := by simpa using hMe
            have hMn' : (M != name) = true := by simpa using hMn
            rw [hMe', hMn', hMk] at hb'
            have hcon : acc.contains M = true := by
              cases hcx : acc.contains M
              · rw [hcx] at hb'; cases hb'
              · rfl
            exact Or.inl (List.elem_iff.mp hcon)
          · exact Or.inr ⟨hMe, hMn, hMk, imp', h2, hroot⟩

theorem fmdStep_contains (deps : List (String × List String)) (f : FileResult)
    (m : String) :
    containsKeyA (fmdStep deps f) m = (containsKeyA deps m || (m == fmdName f)) := by
  unfold fmdStep
  rw [fmdInner_contains _ _ _ (by
    rw [containsKeyA_setKeyA]; simp), containsKeyA_setKeyA]

theorem fmdStep_lookup_ne (deps : List (String × List String)) (f : FileResult)
    (x : String) (hx : x ≠ fmdName f) :
    lookupA (fmdStep deps f) x = lookupA deps x := by
  unfold fmdStep
  rw [fmdInner_lookup_ne _ _ _ _ hx, lookupA_setKeyA_ne _ _ _ _ hx]

theorem fmdStep_lookup_self (deps : List (String × List String)) (f : FileResult) :
    lookupA (fmdStep deps f) (fmdName f)
      = some (fileDepsAux (fun m => containsKeyA deps m || (m == fmdName f))
          (fmdName f) [] (importsOf f)) := by
  unfold fmdStep
  refine fmdInner_lookup_self _ _ _ _ _ (lookupA_setKeyA_self _ _ _) ?_ (by simp)
  intro m
  rw [containsKeyA_setKeyA]

theorem fmdFold_contains : ∀ (fs : List FileResult)
    (deps : List (String × List String)) (m : String),
    containsKeyA (fs.foldl fmdStep deps) m
      = (containsKeyA deps m || (fs.map fmdName).contains m) := by
  intro fs
  induction fs with
  | nil => intro deps m; simp
  | cons f fs ih =>
    intro deps m
    rw [List.foldl_cons, ih, fmdStep_contains, List.map_cons, List.contains_cons,
      Bool.or_assoc]

theorem fmdFold_lookup_ne : ∀ (fs : List FileResult)
    (deps : List (String × List String)) (x : String),
    x ∉ fs.map fmdName →
    lookupA (fs.foldl fmdStep deps) x = lookupA deps x := by
  intro fs
  induction fs with
  | nil => intro deps x _; rfl
  | cons f fs ih =>
    intro deps x hx
    simp only [List.map_cons, List.mem_cons, not_or] at hx
    rw [List.foldl_cons, ih _ x hx.2, fmdStep_lookup_ne _ _ _ hx.1]

/-- **C3 (amended).**  `module_dependencies` records an edge from the
importing module to `M` iff one of the file's import declarations has
root module name `M`, `M` is not the importing module itself, and `M` is
the base filename of a file analyzed *strictly earlier* in the traversal
(for directories whose analyzed files have pairwise distinct, non-empty
base filenames).  A module that only appears later in the sequence yields
no edge — the derivation is order-dependent. -/
theorem C3_module_dependencies_amended (pre post : List FileResult) (f : FileResult)
    (hnd : ((pre ++ f :: post).map fmdName).Nodup)
    (hne : ∀ g ∈ pre, fmdName g ≠ "")
    (M : String) :
    M ∈ (lookupA (find_module_dependencies (pre ++ f :: post)) (fmdName f)).getD []
      ↔ (M ≠ fmdName f ∧ M ∈ pre.map fmdName
          ∧ ∃ imp ∈ importsOf f, rootModOf imp = M) := by
  have heq : find_module_dependencies (pre ++ f :: post)
      = post.foldl fmdStep (fmdStep (pre.foldl fmdStep []) f) := by
    show (pre ++ f :: post).foldl fmdStep [] = _
    rw [List.foldl_append, List.foldl_cons]
  have hnotpost : fmdName f ∉ post.map fmdName := by
    rw [List.map_append, List.map_cons] at hnd
    exact (List.nodup_cons.mp hnd.of_append_right).1
  rw [heq, fmdFold_lookup_ne post _ _ hnotpost, fmdStep_lookup_self,
    Option.getD_some, fileDepsAux_mem]
  have hkeys : ∀ m, containsKeyA (pre.foldl fmdStep []) m
      = (pre.map fmdName).contains m := by
    intro m
    rw [fmdFold_contains]
    rfl
  constructor
  · rintro (hnil | ⟨hMe, hMn, hMk, himp⟩)
    · cases hnil
    · refine ⟨hMn, ?_, himp⟩
      rw [hkeys] at hMk
      have : (M == fmdName f) = false := by
        simp only [beq_eq_false_iff_ne, ne_eq]; exact hMn
      rw [this, Bool.or_false] at hMk
      exact List.elem_iff.mp hMk
  · rintro ⟨hMn, hMpre, himp⟩
    refine Or.inr ⟨?_, hMn, ?_, himp⟩
    · obtain ⟨g, hg, hgM⟩ := List.mem_map.mp hMpre
      exact fun hMe => hne g hg (by rw [hgM, hMe])
    · rw [hkeys]
      have hc : (List.map fmdName pre).contains M = true := List.elem_iff.mpr hMpre
      rw [hc, Bool.true_or]

/-- **C3 counterexample.**  With files analyzed in the order
`[b.py, a.py]`, `b.py`'s import of `a` satisfies every condition of the
claim (`a` is another analyzed file's base name, not a self-reference),
yet no edge `b → a` is recorded, because `a.py` was analyzed later. -/
theorem C3_counterexample : ¬ C3ClaimAt c3files := by
  intro h
  have h2 := (h (.ok c3fileB) (by decide) "a").mpr
    ⟨by decide, ⟨.ok c3fileA, by decide, by decide⟩, c3impA, by decide, by decide⟩
  have h3 : (lookupA (find_module_dependencies c3files)
      (fmdName (.ok c3fileB))).getD [] = ([] : List String) := by decide
  rw [h3] at h2
  exact absurd h2 (List.not_mem_nil _)

theorem C3_module_dependencies_amended_witness :
    (([FileResult.ok c3fileA] ++ FileResult.ok c3fileB :: []).map fmdName).Nodup
    ∧ (∀ g ∈ [FileResult.ok c3fileA], fmdName g ≠ "")
    ∧ (("a" ∈ (lookupA (find_module_dependencies
            ([FileResult.ok c3fileA] ++ FileResult.ok c3fileB :: []))
          (fmdName (FileResult.ok c3fileB))).getD [])
        ↔ ("a" ≠ fmdName (FileResult.ok c3fileB)
            ∧ "a" ∈ [FileResult.ok c3fileA].map fmdName
            ∧ ∃ imp ∈ importsOf (FileResult.ok c3fileB), rootModOf imp = "a")) :=
  ⟨by decide, by decide,
    C3_module_dependencies_amended [.ok c3fileA] [] (.ok c3fileB)
      (by decide) (by decide) "a"⟩

/-- **C4.**  For every analyzed unit, the reported `complexity` equals
exactly `1 + conditionals + loops + exceptions + boolean_ops`, where the
four summands are the independent whole-tree node counts (a try node with
N handlers contributing `1 + N` to the exception count), while
`function_calls` is reported separately in `detailed_complexity` and does
not enter the score. -/
theorem C4_complexity_formula (t : Node) :
    (computeMetrics t).complexity
      = 1 + weightN condWeight t + weightN loopWeight t
          + weightN excWeight t + weightN boolWeight t
    ∧ (computeMetrics t).detailed_complexity.function_calls = weightN callWeight t := by
  have h := visitNode_eq t {}
  refine ⟨?_, ?_⟩
  · simp only [computeMetrics, h, addCounts]
    omega
  · simp only [computeMetrics, h, addCounts]
    simp

end Sandpiper

